import Mathlib

/-!
# bigid: 64-bit identifiers

A shallow embedding of `bigid.go`.  Go's `uint64` values are natural numbers
below `2 ^ 64`; every operation that can leave that range in Go is reduced
modulo `2 ^ 64` here.  Go's `int64` values are integers in
`[-2 ^ 63, 2 ^ 63)`.

Bit layout of an identifier (from the source):

* bits 0-9   auto-increment sequence (10 bits)
* bits 10-17 vsid (8 bits)
* bits 18-57 timestamp (40 bits)
* bits 58-61 reserved (4 bits)
* bits 62-63 version (2 bits)
-/

namespace Bigid

/-! ## Machine integers -/

/-- Go `x << k` on `uint64`: the bits shifted past bit 63 are dropped. -/
def shl64 (x k : Nat) : Nat := (x <<< k) % 2 ^ 64

/-- Go `x >> k` on `uint64`. -/
def shr64 (x k : Nat) : Nat := x >>> k

/-- Go conversion `int64(x)` of a `uint64` bit pattern (two's complement). -/
def toInt64 (x : Nat) : Int :=
  if x % 2 ^ 64 < 2 ^ 63 then ((x % 2 ^ 64 : Nat) : Int)
  else ((x % 2 ^ 64 : Nat) : Int) - 2 ^ 64

/-- Go conversion `uint64(i)` of an `int64`. -/
def toUint64 (i : Int) : Nat := (i % 2 ^ 64).toNat

/-- Go `sync/atomic.AddUint64`: the new value of the cell, which is also the
value returned to the caller. -/
def atomicAddUint64 (cell delta : Nat) : Nat := (cell + delta) % 2 ^ 64

/-- Nanoseconds in `time.Millisecond`. -/
def Millisecond : Int := 1000000

/-! ## The identifier type -/

/-- Go `type BigID int64`: the signed reading of the 64 bits of an identifier. -/
def BigID (x : Nat) : Int := toInt64 x

/-! ## New -/

/-- Lines 30-33 of `New`: the identifier assembled from the sequence number
read from the counter, the elapsed milliseconds and the shard. -/
def newBigId (seq timestamp vsId : Nat) : Nat :=
  let bigId := shl64 1 4
  let bigId := (shl64 bigId 40) ||| (timestamp &&& 0xFFFFFFFFFF)
  let bigId := (shl64 bigId 8) ||| (vsId &&& 0xFF)
  let bigId := (shl64 bigId 10) ||| (seq &&& 0x3FF)
  bigId

/-- The function `New`.  The package counter `autoIncSeq` is passed in and its
new value is returned as the first component; `since` is the `time.Duration`
(an `int64` count of nanoseconds) that `time.Since(baseTime)` returns. -/
def New (autoIncSeq : Nat) (since : Int) (vsId : Nat) : Nat × Nat :=
  let seq := atomicAddUint64 autoIncSeq 1
  let timestamp := toUint64 (Int.tdiv since Millisecond)
  (seq, newBigId seq timestamp vsId)

/-- A run of successive calls of `New` in one process, starting from the counter
value `autoIncSeq`: each call is given by the clock reading it observes and its
shard, and receives the counter the previous call left.  The result is the
final counter value and the identifiers in call order. -/
def NewCalls (autoIncSeq : Nat) : List (Int × Nat) → Nat × List Nat
  | [] => (autoIncSeq, [])
  | call :: rest =>
    let r := New autoIncSeq call.1 call.2
    let rs := NewCalls r.1 rest
    (rs.1, r.2 :: rs.2)

/-! ## Fake and GetVSId -/

/-- The function `Fake`. -/
def Fake (vsId : Nat) : Nat := shl64 (vsId &&& 0xFF) 10

/-- The function `GetVSId`. -/
def GetVSId (bigId : Nat) : Nat := (shr64 bigId 10) &&& 0xFF

/-! ## Parse -/

/-- The struct `BigIDStruct`.  `CreateTime` is kept as the `time.Duration`
(nanoseconds, `int64`) that `Parse` adds to `baseTime`; its rendering as an
RFC 3339 string depends on the local time zone and is not modelled. -/
structure BigIDStruct where
  Version : Nat
  Reserved : Nat
  Timestamp : Nat
  VSId : Nat
  AutoIncSeq : Nat
  CreateTime : Int
  deriving DecidableEq, Repr

/-- The function `Parse`. -/
def Parse (bigId : Nat) : BigIDStruct :=
  let autoIncSeq := bigId &&& 0x3FF
  let bigId := shr64 bigId 10
  let vsId := bigId &&& 0xFF
  let bigId := shr64 bigId 8
  let timestamp := bigId &&& 0xFFFFFFFFFF
  let bigId := shr64 bigId 40
  let reserved := bigId &&& 0xF
  let bigId := shr64 bigId 4
  let version := bigId &&& 0x3
  let d := toInt64 (timestamp * 1000000)
  { Version := version, Reserved := reserved, Timestamp := timestamp,
    VSId := vsId, AutoIncSeq := autoIncSeq, CreateTime := d }

/-! ## Strings and the `strconv` calls

A Go `string` or `[]byte` is the list of its bytes.  The package calls
`strconv.ParseInt` and `strconv.FormatInt` with bit size 64; the definitions
below follow the library's code for bases 2 to 36 and that bit size.
Bytes are written by their codes: 34 is the double quote, 43 is `+`, 45 is `-`,
48 to 57 are `0` to `9`, 65 to 90 are `A` to `Z`, 97 to 122 are `a` to `z`. -/

/-- The bytes of an ASCII text. -/
def ascii (s : String) : List Nat := s.toList.map Char.toNat

/-- The `Err` field of a `*strconv.NumError`. -/
inductive NumError where
  | ErrSyntax
  | ErrRange
  deriving DecidableEq, Repr

/-- Go `-n` on `int64`, which wraps at `-2 ^ 63`. -/
def negInt64 (n : Int) : Int := toInt64 (toUint64 (-n))

/-- The helper `lower` of `strconv`: `c | ('x' - 'X')`. -/
def lower (c : Nat) : Nat := c ||| 0x20

/-- The loop over the bytes in `strconv.ParseUint`, from the value `n`
accumulated so far.  It returns at the first byte that is not a digit of the
base, and at the first digit that takes the value out of range, without looking
at the bytes after it. -/
def parseUintLoop (base cutoff maxVal : Nat) : List Nat → Nat → Nat × Option NumError
  | [], n => (n, none)
  | c :: cs, n =>
    let digit : Option Nat :=
      if 48 ≤ c ∧ c ≤ 57 then some (c - 48)
      else if 97 ≤ lower c ∧ lower c ≤ 122 then some (lower c - 97 + 10)
      else none
    match digit with
    | none => (0, some NumError.ErrSyntax)
    | some d =>
      if d ≥ base then (0, some NumError.ErrSyntax)
      else if n ≥ cutoff then (maxVal, some NumError.ErrRange)
      else
        let n := (n * base) % 2 ^ 64
        let n1 := (n + d) % 2 ^ 64
        if n1 < n ∨ n1 > maxVal then (maxVal, some NumError.ErrRange)
        else parseUintLoop base cutoff maxVal cs n1

/-- The function `strconv.ParseUint(s, base, 64)` for `2 ≤ base ≤ 36`. -/
def ParseUint (s : List Nat) (base : Nat) : Nat × Option NumError :=
  match s with
  | [] => (0, some NumError.ErrSyntax)
  | _ :: _ =>
    let cutoff := (2 ^ 64 - 1) / base + 1
    let maxVal := (shl64 1 64 + 2 ^ 64 - 1) % 2 ^ 64
    parseUintLoop base cutoff maxVal s 0

/-- The function `strconv.ParseInt(s, base, 64)` for `2 ≤ base ≤ 36`: the value
and the error it returns. -/
def ParseInt (s : List Nat) (base : Nat) : Int × Option NumError :=
  match s with
  | [] => (0, some NumError.ErrSyntax)
  | c :: rest =>
    let neg : Bool := decide (c = 45)
    let s1 := if c = 43 then rest else if c = 45 then rest else s
    let r := ParseUint s1 base
    if r.2 = some NumError.ErrSyntax then (0, r.2)
    else
      let un := r.1
      let cutoff : Nat := shl64 1 63
      if neg = false ∧ un ≥ cutoff then (((cutoff - 1 : Nat) : Int), some NumError.ErrRange)
      else if neg = true ∧ un > cutoff then (-((cutoff : Nat) : Int), some NumError.ErrRange)
      else
        let n := toInt64 un
        (if neg then negInt64 n else n, none)

/-- The digit table `"0123456789abcdefghijklmnopqrstuvwxyz"` of `strconv`. -/
def digitChar (d : Nat) : Nat := if d < 10 then 48 + d else 87 + d

/-- The general loop of `strconv.formatBits`: the digits of `u` in `base` are
put in front of `acc`, last digit first.  The loop runs once per digit; the
first argument bounds the number of rounds, and 64 rounds are enough for a
64-bit value in any base. -/
def formatBits (base : Nat) : Nat → Nat → List Nat → List Nat
  | 0, _, acc => acc
  | fuel + 1, u, acc =>
    if u < base then digitChar u :: acc
    else formatBits base fuel (u / base) (digitChar (u % base) :: acc)

/-- The function `strconv.FormatInt(i, base)`. -/
def FormatInt (i : Int) (base : Nat) : List Nat :=
  let u := toUint64 i
  if i < 0 then 45 :: formatBits base 64 ((2 ^ 64 - u) % 2 ^ 64) []
  else formatBits base 64 u []

/-- The function `strings.ToUpper` on ASCII text: the letters `a` to `z` are
mapped to `A` to `Z`, every other byte is kept. -/
def ToUpper (s : List Nat) : List Nat :=
  s.map (fun c => if 97 ≤ c ∧ c ≤ 122 then c - 32 else c)

/-- The helper `trimLeftByte` of `strings`. -/
def trimLeftByte : List Nat → Nat → List Nat
  | [], _ => []
  | x :: xs, c => if x = c then trimLeftByte xs c else x :: xs

/-- The helper `trimRightByte` of `strings`. -/
def trimRightByte (s : List Nat) (c : Nat) : List Nat :=
  (trimLeftByte s.reverse c).reverse

/-- The function `strings.Trim(s, cutset)` for a cutset of one ASCII byte `c`. -/
def Trim (s : List Nat) (c : Nat) : List Nat :=
  trimLeftByte (trimRightByte s c) c

/-! ## The textual forms of `BigID`

A `BigID` is an `int64`, here an integer.  A method with a pointer receiver
takes the receiver's value before the call and returns its value after the
call together with the error. -/

/-- The function `NewFromString`. -/
def NewFromString (str : List Nat) : Int × Option NumError :=
  let r := ParseInt str 10
  if r.2 ≠ none then (0, r.2)
  else (r.1, none)

/-- The method `BigID.String`. -/
def BigID.String (bigID : Int) : List Nat :=
  ToUpper (FormatInt bigID 10)

/-- The method `BigID.UnmarshalBind`: the receiver after the call and the error. -/
def BigID.UnmarshalBind (_bigID : Int) (value : List Nat) : Int × Option NumError :=
  let r := ParseInt value 10
  (r.1, r.2)

/-- The method `BigID.UnmarshalJSON`: the receiver after the call and the error. -/
def BigID.UnmarshalJSON (_bigID : Int) (data : List Nat) : Int × Option NumError :=
  let str := Trim data 34
  let r := ParseInt str 10
  (r.1, r.2)

/-- The method `BigID.MarshalJSON`: the bytes and the error, which is always nil. -/
def BigID.MarshalJSON (bigID : Int) : List Nat × Option NumError :=
  (34 :: BigID.String bigID ++ [34], none)

/-! ## Decimal literals

The reading of a text as a signed decimal literal, independent of the parsing
code: an optional sign `+` or `-`, then one or more decimal digits. -/

/-- A byte that is one of `0` to `9`. -/
def isDigit (c : Nat) : Bool := decide (48 ≤ c ∧ c ≤ 57)

/-- The number the decimal digits `cs` denote when they follow digits that
denote `n`. -/
def digitsValue : List Nat → Nat → Nat
  | [], n => n
  | c :: cs, n => digitsValue cs (n * 10 + (c - 48))

/-- All the bytes are decimal digits. -/
def allDigits (cs : List Nat) : Bool := cs.all isDigit

/-- The longest run of decimal digits the text starts with. -/
def leadingDigits (cs : List Nat) : List Nat := cs.takeWhile isDigit

/-- The text without its sign, when it starts with one. -/
def unsignedPart (text : List Nat) : List Nat :=
  match text with
  | [] => []
  | c :: rest => if c = 43 ∨ c = 45 then rest else c :: rest

/-- The text starts with `-`. -/
def hasMinus (text : List Nat) : Bool :=
  match text with
  | [] => false
  | c :: _ => decide (c = 45)

/-- The integer a signed decimal literal denotes, `none` when the text is not
such a literal. -/
def literalValue (text : List Nat) : Option Int :=
  if unsignedPart text ≠ [] ∧ allDigits (unsignedPart text) = true then
    some (if hasMinus text then -((digitsValue (unsignedPart text) 0 : Nat) : Int)
      else ((digitsValue (unsignedPart text) 0 : Nat) : Int))
  else none

/-- The result of `ParseInt` in base 10 stated on the shape of the text, `body`
being the text without its sign: a run of leading digits that leaves the
`uint64` range gives a range error whatever follows it. -/
def parseIntResult (neg : Bool) (body : List Nat) : Int × Option NumError :=
  if body = [] then (0, some NumError.ErrSyntax)
  else if digitsValue (leadingDigits body) 0 ≥ 2 ^ 64 then
    (if neg then -(2 ^ 63) else 2 ^ 63 - 1, some NumError.ErrRange)
  else if allDigits body = false then (0, some NumError.ErrSyntax)
  else if neg = false ∧ digitsValue body 0 ≥ 2 ^ 63 then (2 ^ 63 - 1, some NumError.ErrRange)
  else if neg = true ∧ digitsValue body 0 > 2 ^ 63 then (-(2 ^ 63), some NumError.ErrRange)
  else (if neg then -((digitsValue body 0 : Nat) : Int) else ((digitsValue body 0 : Nat) : Int),
    none)

/-! ## Arithmetic reading of the masks and shifts -/

theorem and_0x3FF (x : Nat) : x &&& 0x3FF = x % 1024 :=
  Nat.and_pow_two_sub_one_eq_mod x 10

theorem and_0xFF (x : Nat) : x &&& 0xFF = x % 256 :=
  Nat.and_pow_two_sub_one_eq_mod x 8

theorem and_0xFFFFFFFFFF (x : Nat) : x &&& 0xFFFFFFFFFF = x % 1099511627776 :=
  Nat.and_pow_two_sub_one_eq_mod x 40

theorem and_0xF (x : Nat) : x &&& 0xF = x % 16 :=
  Nat.and_pow_two_sub_one_eq_mod x 4

theorem and_0x3 (x : Nat) : x &&& 0x3 = x % 4 :=
  Nat.and_pow_two_sub_one_eq_mod x 2

theorem shr64_eq (x k : Nat) : shr64 x k = x / 2 ^ k := by
  unfold shr64
  exact Nat.shiftRight_eq_div_pow x k

theorem shl64_eq (x k : Nat) : shl64 x k = (x * 2 ^ k) % 2 ^ 64 := by
  unfold shl64
  rw [Nat.shiftLeft_eq]

/-- Or-ing a value below `2 ^ k` into a multiple of `2 ^ k` adds it. -/
theorem mul_pow_or (a b k : Nat) (hb : b < 2 ^ k) :
    (a * 2 ^ k) ||| b = a * 2 ^ k + b := by
  rw [Nat.mul_comm a (2 ^ k)]
  exact (Nat.mul_add_lt_is_or hb a).symm

theorem Parse_fields (x : Nat) :
    Parse x =
      { Version := x / 2 ^ 62 % 4, Reserved := x / 2 ^ 58 % 16,
        Timestamp := x / 2 ^ 18 % 2 ^ 40, VSId := x / 2 ^ 10 % 256,
        AutoIncSeq := x % 1024,
        CreateTime := toInt64 (x / 2 ^ 18 % 2 ^ 40 * 1000000) } := by
  simp only [Parse, shr64_eq, and_0x3FF, and_0xFF, and_0xFFFFFFFFFF, and_0xF, and_0x3,
    Nat.div_div_eq_div_mul]
  norm_num

/-- The value `New` assembles, as a sum of its fields. -/
theorem newBigId_eq (c t s : Nat) :
    newBigId c t s = 2 ^ 62 + (t % 2 ^ 40) * 2 ^ 18 + (s % 256) * 2 ^ 10 + c % 1024 := by
  have ht : t % 1099511627776 < 2 ^ 40 := by norm_num; omega
  have hs : s % 256 < 2 ^ 8 := by norm_num; omega
  have hc : c % 1024 < 2 ^ 10 := by norm_num; omega
  have h1 : shl64 1 4 = 16 := by decide
  have h2 : shl64 16 40 = 16 * 2 ^ 40 := by decide
  simp only [newBigId, and_0x3FF, and_0xFF, and_0xFFFFFFFFFF, h1, h2]
  rw [mul_pow_or 16 _ 40 ht]
  have e1 : shl64 (16 * 2 ^ 40 + t % 1099511627776) 8
      = (16 * 2 ^ 40 + t % 1099511627776) * 2 ^ 8 := by
    rw [shl64_eq]; apply Nat.mod_eq_of_lt; omega
  rw [e1, mul_pow_or _ _ 8 hs]
  have e2 : shl64 ((16 * 2 ^ 40 + t % 1099511627776) * 2 ^ 8 + s % 256) 10
      = ((16 * 2 ^ 40 + t % 1099511627776) * 2 ^ 8 + s % 256) * 2 ^ 10 := by
    rw [shl64_eq]; apply Nat.mod_eq_of_lt; omega
  rw [e2, mul_pow_or _ _ 10 hc]
  norm_num
  omega

theorem toInt64_of_lt (x : Nat) (hx : x < 2 ^ 63) : toInt64 x = (x : Int) := by
  have h : x % 2 ^ 64 = x := Nat.mod_eq_of_lt (by omega)
  simp only [toInt64, h, if_pos hx]

theorem New_snd (c0 : Nat) (d : Int) (s : Nat) :
    (New c0 d s).2 = newBigId ((c0 + 1) % 2 ^ 64) (toUint64 (Int.tdiv d 1000000)) s := rfl

theorem New_fst (c0 : Nat) (d : Int) (s : Nat) : (New c0 d s).1 = (c0 + 1) % 2 ^ 64 := rfl

/-! ## The bit layout -/

/-- C1: for every 64-bit value `x` the fields `Parse x` yields lie within their
widths (2, 4, 40, 8 and 10 bits) and reassembling them at bit offsets 62, 58,
18, 10 and 0 gives `x` back; conversely any five values within those widths,
once assembled, are decoded to themselves.  So the five fields partition the
64 bits with no overlap and no gap. -/
theorem Parse_partition (x : Nat) (hx : x < 2 ^ 64) :
    (Parse x).Version < 4 ∧ (Parse x).Reserved < 16 ∧ (Parse x).Timestamp < 2 ^ 40 ∧
    (Parse x).VSId < 256 ∧ (Parse x).AutoIncSeq < 1024 ∧
    (Parse x).Version * 2 ^ 62 + (Parse x).Reserved * 2 ^ 58 + (Parse x).Timestamp * 2 ^ 18
      + (Parse x).VSId * 2 ^ 10 + (Parse x).AutoIncSeq = x ∧
    (∀ v r t s q : Nat, v < 4 → r < 16 → t < 2 ^ 40 → s < 256 → q < 1024 →
      x = v * 2 ^ 62 + r * 2 ^ 58 + t * 2 ^ 18 + s * 2 ^ 10 + q →
      (Parse x).Version = v ∧ (Parse x).Reserved = r ∧ (Parse x).Timestamp = t ∧
      (Parse x).VSId = s ∧ (Parse x).AutoIncSeq = q) := by
  rw [Parse_fields]
  norm_num at hx ⊢
  refine ⟨by omega, by omega, by omega, by omega, by omega, by omega, ?_⟩
  intro v r t s q hv hr ht hs hq hxe
  refine ⟨by omega, by omega, by omega, by omega, by omega⟩

/-- Instance of `Parse_partition` at the all-ones value `2 ^ 64 - 1`. -/
theorem Parse_partition_witness :
    (18446744073709551615 : Nat) < 2 ^ 64 ∧
    (Parse 18446744073709551615).Version * 2 ^ 62
      + (Parse 18446744073709551615).Reserved * 2 ^ 58
      + (Parse 18446744073709551615).Timestamp * 2 ^ 18
      + (Parse 18446744073709551615).VSId * 2 ^ 10
      + (Parse 18446744073709551615).AutoIncSeq = 18446744073709551615 :=
  ⟨by norm_num, (Parse_partition 18446744073709551615 (by norm_num)).2.2.2.2.2.1⟩

/-! ## New -/

/-- C2: as a function of the post-increment counter value `c`, the elapsed
milliseconds `t` and the shard `s`, `New` returns
`2^62 + (t mod 2^40) * 2^18 + (s mod 256) * 2^10 + (c mod 1024)`; `Parse` of
that value has `Timestamp = t mod 2^40` and `AutoIncSeq = c mod 1024`; and for
`t = 1000`, `s = 7`, `c = 1` (the first call of a process, one second after the
clock base) the decoded fields are version 1, reserved 0, timestamp 1000,
shard 7, sequence 1. -/
theorem New_layout (c t s : Nat) :
    newBigId c t s = 2 ^ 62 + (t % 2 ^ 40) * 2 ^ 18 + (s % 256) * 2 ^ 10 + c % 1024 ∧
    (Parse (newBigId c t s)).Timestamp = t % 2 ^ 40 ∧
    (Parse (newBigId c t s)).AutoIncSeq = c % 1024 ∧
    Parse (newBigId 1 1000 7) =
      { Version := 1, Reserved := 0, Timestamp := 1000, VSId := 7, AutoIncSeq := 1,
        CreateTime := 1000000000 } ∧
    New 0 1000000000 7 = (1, newBigId 1 1000 7) := by
  refine ⟨newBigId_eq c t s, ?_, ?_, by decide, by decide⟩
  · rw [Parse_fields, newBigId_eq]
    norm_num
    omega
  · rw [Parse_fields, newBigId_eq]
    norm_num
    omega

/-- C3: for every shard, elapsed-millisecond value and counter value, `New`
returns a 64-bit value whose decoded shard is `s mod 256`; so a shard in
`[0, 255]` is decoded unchanged, and a larger shard is truncated to its low
8 bits, the identifier being the one of `s mod 256`. -/
theorem New_shard (c t s : Nat) :
    newBigId c t s < 2 ^ 64 ∧
    (Parse (newBigId c t s)).VSId = s % 256 ∧
    (s ≤ 255 → (Parse (newBigId c t s)).VSId = s) ∧
    newBigId c t s = newBigId c t (s % 256) ∧
    (∀ (c0 : Nat) (d : Int), (Parse (New c0 d s).2).VSId = s % 256) := by
  have key : ∀ c t : Nat, (Parse (newBigId c t s)).VSId = s % 256 := by
    intro c t
    rw [Parse_fields, newBigId_eq]
    norm_num
    omega
  refine ⟨?_, key c t, ?_, ?_, ?_⟩
  · rw [newBigId_eq]; norm_num; omega
  · intro hs
    rw [key c t]; omega
  · rw [newBigId_eq, newBigId_eq]; norm_num
  · intro c0 d
    rw [New_snd]; exact key _ _

/-- Instance of `New_shard` at shard 200. -/
theorem New_shard_witness :
    (200 : Nat) ≤ 255 ∧ (Parse (newBigId 5 1000 200)).VSId = 200 :=
  ⟨by decide, (New_shard 5 1000 200).2.2.1 (by decide)⟩

/-- C4: every value produced by `New`, for any shard, elapsed-millisecond
value and counter value, decodes to version 1 and reserved 0. -/
theorem New_version_reserved (c t s : Nat) :
    (Parse (newBigId c t s)).Version = 1 ∧ (Parse (newBigId c t s)).Reserved = 0 ∧
    (∀ (c0 : Nat) (d : Int),
      (Parse (New c0 d s).2).Version = 1 ∧ (Parse (New c0 d s).2).Reserved = 0) := by
  have key : ∀ c t : Nat,
      (Parse (newBigId c t s)).Version = 1 ∧ (Parse (newBigId c t s)).Reserved = 0 := by
    intro c t
    rw [Parse_fields, newBigId_eq]
    norm_num
    constructor <;> omega
  refine ⟨(key c t).1, (key c t).2, ?_⟩
  intro c0 d
  rw [New_snd]; exact key _ _

/-! ## Fake and GetVSId -/

theorem Fake_eq (s : Nat) : Fake s = (s % 256) * 2 ^ 10 := by
  unfold Fake
  rw [and_0xFF, shl64_eq]
  apply Nat.mod_eq_of_lt
  omega

theorem GetVSId_eq (x : Nat) : GetVSId x = x / 2 ^ 10 % 2 ^ 8 := by
  unfold GetVSId
  rw [and_0xFF, shr64_eq]
  norm_num

/-- C5: `Fake s` is `(s mod 256) * 2^10`, a function of `s` alone, and it
decodes to version 0, reserved 0, timestamp 0, shard `s mod 256`, sequence 0;
in particular `Fake 42` decodes to shard 42 with every other field 0. -/
theorem Fake_parse (s : Nat) :
    Fake s = (s % 256) * 2 ^ 10 ∧
    Parse (Fake s) =
      { Version := 0, Reserved := 0, Timestamp := 0, VSId := s % 256, AutoIncSeq := 0,
        CreateTime := 0 } ∧
    Parse (Fake 42) =
      { Version := 0, Reserved := 0, Timestamp := 0, VSId := 42, AutoIncSeq := 0,
        CreateTime := 0 } := by
  refine ⟨Fake_eq s, ?_, by decide⟩
  rw [Parse_fields, Fake_eq]
  have h1 : s % 256 * 2 ^ 10 / 2 ^ 62 % 4 = 0 := by omega
  have h2 : s % 256 * 2 ^ 10 / 2 ^ 58 % 16 = 0 := by omega
  have h3 : s % 256 * 2 ^ 10 / 2 ^ 18 % 2 ^ 40 = 0 := by omega
  have h4 : s % 256 * 2 ^ 10 / 2 ^ 10 % 256 = s % 256 := by omega
  have h5 : s % 256 * 2 ^ 10 % 1024 = 0 := by omega
  rw [h1, h2, h3, h4, h5]
  rfl

/-- C6: for every value `x`, `GetVSId x` is bits 10-17 of `x`, that is
`(x / 2^10) mod 2^8`, which is the shard `Parse x` decodes; so for every shard
`s` in `[0, 255]`, `GetVSId (Fake s) = s` and `GetVSId` of the identifier `New`
produces for `s` is `s`, whatever the time and the counter (for instance
`s = 200`). -/
theorem GetVSId_spec (x : Nat) :
    GetVSId x = x / 2 ^ 10 % 2 ^ 8 ∧
    GetVSId x < 2 ^ 8 ∧
    (∀ i : Nat, i < 8 → (GetVSId x).testBit i = x.testBit (10 + i)) ∧
    GetVSId x = (Parse x).VSId ∧
    (∀ s c t : Nat, s ≤ 255 → GetVSId (Fake s) = s ∧ GetVSId (newBigId c t s) = s) ∧
    (∀ (s c0 : Nat) (d : Int), s ≤ 255 → GetVSId (New c0 d s).2 = s) ∧
    GetVSId (Fake 200) = 200 ∧ GetVSId (New 0 1000000000 200).2 = 200 := by
  have key : ∀ s c t : Nat, s ≤ 255 → GetVSId (newBigId c t s) = s := by
    intro s c t hs
    rw [GetVSId_eq, newBigId_eq]
    norm_num
    omega
  refine ⟨GetVSId_eq x, ?_, ?_, ?_, ?_, ?_, by decide, by decide⟩
  · rw [GetVSId_eq]; exact Nat.mod_lt _ (by norm_num)
  · intro i hi
    have hm : (2 ^ 8 - 1 : Nat).testBit i = true := by
      rw [Nat.testBit_two_pow_sub_one]; simpa using hi
    have hg : GetVSId x = (x >>> 10) &&& (2 ^ 8 - 1) := rfl
    rw [hg, Nat.testBit_and, hm, Bool.and_true, Nat.testBit_shiftRight]
  · rw [GetVSId_eq, Parse_fields]
    norm_num
  · intro s c t hs
    refine ⟨?_, key s c t hs⟩
    rw [GetVSId_eq, Fake_eq]
    omega
  · intro s c0 d hs
    rw [New_snd]; exact key s _ _ hs

/-- Instance of `GetVSId_spec` at shard 200. -/
theorem GetVSId_spec_witness :
    (200 : Nat) ≤ 255 ∧ GetVSId (Fake 200) = 200 ∧ GetVSId (newBigId 3 1000 200) = 200 :=
  ⟨by decide, (GetVSId_spec 0).2.2.2.2.1 200 3 1000 (by decide)⟩

/-! ## The sequence counter -/

/-- The identifier depends on the counter only through its low 10 bits. -/
theorem newBigId_congr (c c' t s : Nat) (h : c % 1024 = c' % 1024) :
    newBigId c t s = newBigId c' t s := by
  rw [newBigId_eq, newBigId_eq, h]

theorem Parse_newBigId_seq (c t s : Nat) : (Parse (newBigId c t s)).AutoIncSeq = c % 1024 := by
  rw [Parse_fields, newBigId_eq]
  norm_num
  omega

/-- The identifiers of a run of calls that all observe the millisecond `t` and
use the shard `s`. -/
theorem NewCalls_snd (t s : Nat) : ∀ (calls : List (Int × Nat)) (c0 : Nat),
    (∀ p ∈ calls, p.2 = s ∧ toUint64 (Int.tdiv p.1 Millisecond) = t) →
    (NewCalls c0 calls).2 = (List.range calls.length).map (fun i => newBigId (c0 + 1 + i) t s) := by
  intro calls
  induction calls with
  | nil => intro c0 _; simp [NewCalls]
  | cons p rest ih =>
    intro c0 h
    have hp := h p (List.mem_cons_self p rest)
    have hrest : ∀ q ∈ rest, q.2 = s ∧ toUint64 (Int.tdiv q.1 Millisecond) = t :=
      fun q hq => h q (List.mem_cons_of_mem p hq)
    have ih2 := ih ((c0 + 1) % 2 ^ 64) hrest
    simp only [NewCalls, New, atomicAddUint64, List.length_cons, List.range_succ_eq_map,
      List.map_cons, List.map_map]
    rw [ih2, hp.1, hp.2]
    congr 1
    · exact newBigId_congr _ _ _ _ (by omega)
    · apply List.map_congr_left
      intro i _
      simp only [Function.comp]
      exact newBigId_congr _ _ _ _ (by omega)

/-- C7: with the counter `autoIncSeq` as the state, a call of `New` moves the
counter from `c0` to `(c0 + 1) mod 2^64` and emits the sequence field
`(c0 + 1) mod 1024`; for two consecutive calls the later sequence field is the
earlier one plus 1 modulo 1024, so it goes up by one per call until 1023 and is
0 on the next call.  This holds for every counter value, also across the
wrap of the counter at `2^64`, and the first call of a process (counter 0)
emits sequence 1. -/
theorem New_sequence (c0 : Nat) (d1 d2 : Int) (s1 s2 : Nat) :
    (New c0 d1 s1).1 = (c0 + 1) % 2 ^ 64 ∧
    (Parse (New c0 d1 s1).2).AutoIncSeq = (c0 + 1) % 1024 ∧
    (Parse (New (New c0 d1 s1).1 d2 s2).2).AutoIncSeq
      = ((Parse (New c0 d1 s1).2).AutoIncSeq + 1) % 1024 ∧
    ((Parse (New c0 d1 s1).2).AutoIncSeq < 1023 →
      (Parse (New (New c0 d1 s1).1 d2 s2).2).AutoIncSeq
        = (Parse (New c0 d1 s1).2).AutoIncSeq + 1) ∧
    ((Parse (New c0 d1 s1).2).AutoIncSeq = 1023 →
      (Parse (New (New c0 d1 s1).1 d2 s2).2).AutoIncSeq = 0) ∧
    ((New 0 d1 s1).1 = 1 ∧ (Parse (New 0 d1 s1).2).AutoIncSeq = 1) ∧
    ((New (2 ^ 64 - 2) d1 s1).1 = 2 ^ 64 - 1 ∧
      (Parse (New (2 ^ 64 - 2) d1 s1).2).AutoIncSeq = 1023 ∧
      (New (2 ^ 64 - 1) d2 s2).1 = 0 ∧
      (Parse (New (2 ^ 64 - 1) d2 s2).2).AutoIncSeq = 0) := by
  simp only [New_snd, New_fst, Parse_newBigId_seq]
  norm_num
  omega

/-- Instance of `New_sequence` at the counter value 1022, where the next two
calls emit 1023 and then 0. -/
theorem New_sequence_witness :
    (Parse (New 1022 0 0).2).AutoIncSeq = 1023 ∧
    (Parse (New (New 1022 0 0).1 0 0).2).AutoIncSeq = 0 :=
  ⟨by decide, (New_sequence 1022 0 0 0 0).2.2.2.2.1 (by decide)⟩

/-- C8: for a fixed shard and a fixed elapsed-millisecond value, the
identifiers `New` produces at counter values `c1` and `c2` are equal exactly
when `c1` and `c2` are congruent modulo 1024; so in any run of 1025 calls that
observe one millisecond on one shard the first 1024 identifiers are pairwise
distinct and the 1025th is the 1st again. -/
theorem New_collision (c1 c2 t s c0 : Nat) (calls : List (Int × Nat))
    (hlen : calls.length = 1025)
    (hcalls : ∀ p ∈ calls, p.2 = s ∧ toUint64 (Int.tdiv p.1 Millisecond) = t) :
    (newBigId c1 t s = newBigId c2 t s ↔ c1 % 1024 = c2 % 1024) ∧
    (NewCalls c0 calls).2.length = 1025 ∧
    ((NewCalls c0 calls).2.take 1024).Nodup ∧
    (NewCalls c0 calls).2[1024]? = (NewCalls c0 calls).2[0]? := by
  have hiff : ∀ a b : Nat, newBigId a t s = newBigId b t s ↔ a % 1024 = b % 1024 := by
    intro a b
    constructor
    · intro h
      have h2 := congrArg (fun x => (Parse x).AutoIncSeq) h
      simpa only [Parse_newBigId_seq] using h2
    · exact newBigId_congr a b t s
  rw [NewCalls_snd t s calls c0 hcalls, hlen]
  refine ⟨hiff c1 c2, by simp, ?_, ?_⟩
  · rw [← List.map_take, List.take_range]
    apply List.Nodup.map_on _ (List.nodup_range _)
    intro i hi j hj hij
    rw [List.mem_range] at hi hj
    have := (hiff _ _).1 hij
    omega
  · rw [List.getElem?_map, List.getElem?_map, List.getElem?_range (by norm_num),
      List.getElem?_range (by norm_num)]
    simp only [Option.map_some']
    exact congrArg some (newBigId_congr _ _ _ _ (by omega))

/-- Instance of `New_collision`: 1025 calls at the clock base on shard 0 from a
fresh counter. -/
theorem New_collision_witness :
    (List.replicate 1025 ((0 : Int), (0 : Nat))).length = 1025 ∧
    ((NewCalls 0 (List.replicate 1025 (0, 0))).2.take 1024).Nodup ∧
    (NewCalls 0 (List.replicate 1025 (0, 0))).2[1024]?
      = (NewCalls 0 (List.replicate 1025 (0, 0))).2[0]? :=
  ⟨List.length_replicate 1025 (0, 0),
    (New_collision 0 0 0 0 0 (List.replicate 1025 (0, 0)) (List.length_replicate 1025 (0, 0))
      (fun p hp => by rw [List.eq_of_mem_replicate hp]; exact ⟨rfl, by decide⟩)).2.2⟩

/-! ## Uniqueness across shards and ordering by time -/

/-- C9: for two distinct shards in `[0, 255]` the identifiers `New` produces
differ, whatever the elapsed milliseconds and the counter values of the two
calls; outside `[0, 255]` this fails: shards 1 and 257 give the same
identifier at the same time and counter. -/
theorem New_distinct_shards (s1 s2 c1 c2 t1 t2 : Nat) (h1 : s1 ≤ 255) (h2 : s2 ≤ 255)
    (hne : s1 ≠ s2) :
    newBigId c1 t1 s1 ≠ newBigId c2 t2 s2 ∧
    (∀ (a b : Nat) (d e : Int), (New a d s1).2 ≠ (New b e s2).2) ∧
    (∀ c t : Nat, newBigId c t 1 = newBigId c t 257) ∧
    (∀ (a : Nat) (d : Int), New a d 1 = New a d 257) := by
  have key : ∀ c1 c2 t1 t2 : Nat, newBigId c1 t1 s1 ≠ newBigId c2 t2 s2 := by
    intro c1 c2 t1 t2 h
    have h3 := congrArg GetVSId h
    rw [GetVSId_eq, GetVSId_eq, newBigId_eq, newBigId_eq] at h3
    norm_num at h3
    omega
  have same : ∀ c t : Nat, newBigId c t 1 = newBigId c t 257 := by
    intro c t
    rw [newBigId_eq, newBigId_eq]
  refine ⟨key c1 c2 t1 t2, ?_, same, ?_⟩
  · intro a b d e
    rw [New_snd, New_snd]; exact key _ _ _ _
  · intro a d
    simp only [New, same]

/-- Instance of `New_distinct_shards` at shards 3 and 4. -/
theorem New_distinct_shards_witness :
    (3 : Nat) ≤ 255 ∧ (4 : Nat) ≤ 255 ∧ (3 : Nat) ≠ 4 ∧ newBigId 9 1000 3 ≠ newBigId 9 1000 4 :=
  ⟨by decide, by decide, by decide,
    (New_distinct_shards 3 4 9 9 1000 1000 (by decide) (by decide) (by decide)).1⟩

/-- C10: for elapsed-millisecond values `t1 < t2 < 2^40` the identifier `New`
produces at `t1` is strictly less than the one it produces at `t2`, for all
shards and counter values of the two calls, both as `uint64` and as the signed
`BigID` value. -/
theorem New_time_ordered (t1 t2 c1 c2 s1 s2 : Nat) (h12 : t1 < t2) (h2 : t2 < 2 ^ 40) :
    newBigId c1 t1 s1 < newBigId c2 t2 s2 ∧
    BigID (newBigId c1 t1 s1) < BigID (newBigId c2 t2 s2) ∧
    (∀ (a b : Nat) (d e : Int),
      toUint64 (Int.tdiv d Millisecond) = t1 → toUint64 (Int.tdiv e Millisecond) = t2 →
      (New a d s1).2 < (New b e s2).2 ∧ BigID (New a d s1).2 < BigID (New b e s2).2) := by
  have key : ∀ c1 c2 : Nat, newBigId c1 t1 s1 < newBigId c2 t2 s2 ∧
      BigID (newBigId c1 t1 s1) < BigID (newBigId c2 t2 s2) := by
    intro c1 c2
    have hb : ∀ c t s : Nat, newBigId c t s < 2 ^ 63 := by
      intro c t s
      rw [newBigId_eq]; norm_num; omega
    have hlt : newBigId c1 t1 s1 < newBigId c2 t2 s2 := by
      rw [newBigId_eq, newBigId_eq]
      norm_num at h2 ⊢
      omega
    refine ⟨hlt, ?_⟩
    unfold BigID
    rw [toInt64_of_lt _ (hb _ _ _), toInt64_of_lt _ (hb _ _ _)]
    exact_mod_cast hlt
  refine ⟨(key c1 c2).1, (key c1 c2).2, ?_⟩
  intro a b d e hd he
  rw [New_snd, New_snd]
  have hd2 : toUint64 (Int.tdiv d 1000000) = t1 := hd
  have he2 : toUint64 (Int.tdiv e 1000000) = t2 := he
  rw [hd2, he2]
  exact key _ _

/-- Instance of `New_time_ordered` at milliseconds 1000 and 1001, the earlier
call having the larger shard and counter. -/
theorem New_time_ordered_witness :
    (1000 : Nat) < 1001 ∧ (1001 : Nat) < 2 ^ 40 ∧
    newBigId 1023 1000 255 < newBigId 0 1001 0 ∧
    BigID (newBigId 1023 1000 255) < BigID (newBigId 0 1001 0) :=
  ⟨by decide, by norm_num,
    (New_time_ordered 1000 1001 1023 0 255 0 (by decide) (by norm_num)).1,
    (New_time_ordered 1000 1001 1023 0 255 0 (by decide) (by norm_num)).2.1⟩

/-! ## strconv on decimal text -/

theorem digitsValue_ge (cs : List Nat) : ∀ n : Nat, n ≤ digitsValue cs n := by
  induction cs with
  | nil => intro n; exact Nat.le_refl n
  | cons c cs ih =>
    intro n
    have := ih (n * 10 + (c - 48))
    simp only [digitsValue]
    omega

theorem digitsValue_append (xs ys : List Nat) :
    ∀ n : Nat, digitsValue (xs ++ ys) n = digitsValue ys (digitsValue xs n) := by
  induction xs with
  | nil => intro n; rfl
  | cons c cs ih =>
    intro n
    show digitsValue (cs ++ ys) (n * 10 + (c - 48)) = _
    rw [ih]
    rfl

theorem isDigit_iff (c : Nat) : isDigit c = true ↔ 48 ≤ c ∧ c ≤ 57 := by
  simp [isDigit]

/-- The digit loop of `ParseUint` in base 10, from an accumulated value within
the `uint64` range. -/
theorem parseUintLoop_ten (cs : List Nat) : ∀ n : Nat, n < 2 ^ 64 →
    parseUintLoop 10 1844674407370955162 18446744073709551615 cs n =
      if digitsValue (leadingDigits cs) n ≥ 2 ^ 64 then
        (18446744073709551615, some NumError.ErrRange)
      else if allDigits cs = false then (0, some NumError.ErrSyntax)
      else (digitsValue cs n, none) := by
  induction cs with
  | nil =>
    intro n hn
    show (n, none) = if n ≥ 2 ^ 64 then _ else if true = false then _ else (n, none)
    rw [if_neg (by omega : ¬ n ≥ 2 ^ 64), if_neg (by decide : ¬ true = false)]
  | cons c cs ih =>
    intro n hn
    by_cases hc : 48 ≤ c ∧ c ≤ 57
    · have hd : isDigit c = true := (isDigit_iff c).2 hc
      have hlead : leadingDigits (c :: cs) = c :: leadingDigits cs := by
        simp [leadingDigits, List.takeWhile, hd]
      have hall : allDigits (c :: cs) = allDigits cs := by
        simp [allDigits, hd]
      have hval : digitsValue (c :: cs) n = digitsValue cs (n * 10 + (c - 48)) := rfl
      have hvalL : digitsValue (c :: leadingDigits cs) n
          = digitsValue (leadingDigits cs) (n * 10 + (c - 48)) := rfl
      rw [hlead, hall, hval, hvalL]
      simp only [parseUintLoop, hc, and_self, if_true]
      have hmono := digitsValue_ge (leadingDigits cs) (n * 10 + (c - 48))
      rw [if_neg (by omega : ¬ c - 48 ≥ 10)]
      by_cases h1 : n ≥ 1844674407370955162
      · have hbig : digitsValue (leadingDigits cs) (n * 10 + (c - 48)) ≥ 2 ^ 64 := by omega
        rw [if_pos h1, if_pos hbig]
      · have e1 : n * 10 % 2 ^ 64 = n * 10 := Nat.mod_eq_of_lt (by omega)
        rw [if_neg h1, e1]
        by_cases h2 : n * 10 + (c - 48) < 2 ^ 64
        · have e2 : (n * 10 + (c - 48)) % 2 ^ 64 = n * 10 + (c - 48) := Nat.mod_eq_of_lt h2
          rw [e2, if_neg (by omega : ¬ (n * 10 + (c - 48) < n * 10 ∨
            n * 10 + (c - 48) > 18446744073709551615))]
          exact ih (n * 10 + (c - 48)) h2
        · have hbig : digitsValue (leadingDigits cs) (n * 10 + (c - 48)) ≥ 2 ^ 64 := by omega
          have e2 : (n * 10 + (c - 48)) % 2 ^ 64 = n * 10 + (c - 48) - 2 ^ 64 := by omega
          rw [e2, if_pos (by omega : n * 10 + (c - 48) - 2 ^ 64 < n * 10 ∨
            n * 10 + (c - 48) - 2 ^ 64 > 18446744073709551615), if_pos hbig]
    · have hd : isDigit c = false := by
        cases h : isDigit c
        · rfl
        · exact absurd ((isDigit_iff c).1 h) hc
      have hlead : leadingDigits (c :: cs) = [] := by
        simp [leadingDigits, List.takeWhile, hd]
      have hall : allDigits (c :: cs) = false := by
        simp [allDigits, hd]
      have hval : digitsValue [] n = n := rfl
      rw [hlead, hall, hval, if_neg (by omega : ¬ n ≥ 2 ^ 64), if_pos rfl]
      by_cases hl : 97 ≤ lower c ∧ lower c ≤ 122
      · simp only [parseUintLoop, hc, if_false, hl, and_self, if_true]
        rw [if_pos (by omega : lower c - 97 + 10 ≥ 10)]
      · simp only [parseUintLoop, hc, if_false, hl]

theorem ParseUint_ten (body : List Nat) :
    ParseUint body 10 =
      if body = [] then (0, some NumError.ErrSyntax)
      else if digitsValue (leadingDigits body) 0 ≥ 2 ^ 64 then
        (18446744073709551615, some NumError.ErrRange)
      else if allDigits body = false then (0, some NumError.ErrSyntax)
      else (digitsValue body 0, none) := by
  cases body with
  | nil => rfl
  | cons c cs =>
    rw [if_neg (List.cons_ne_nil c cs)]
    have hC : (2 ^ 64 - 1) / 10 + 1 = 1844674407370955162 := by norm_num
    have hM : (shl64 1 64 + 2 ^ 64 - 1) % 2 ^ 64 = 18446744073709551615 := by decide
    simp only [ParseUint, hC, hM]
    exact parseUintLoop_ten (c :: cs) 0 (by norm_num)

theorem toInt64_neg_of_le (v : Nat) (hv : v ≤ 2 ^ 63) :
    negInt64 (toInt64 v) = -(v : Int) := by
  unfold negInt64 toInt64 toUint64
  have h : v % 2 ^ 64 = v := Nat.mod_eq_of_lt (by omega)
  rw [h]
  split_ifs <;> omega

/-- The part of `ParseInt` that follows the removal of the sign. -/
theorem ParseInt_afterSign (neg : Bool) (body : List Nat) :
    (if (ParseUint body 10).2 = some NumError.ErrSyntax then
        ((0 : Int), (ParseUint body 10).2)
      else if neg = false ∧ (ParseUint body 10).1 ≥ shl64 1 63 then
        (((shl64 1 63 - 1 : Nat) : Int), some NumError.ErrRange)
      else if neg = true ∧ (ParseUint body 10).1 > shl64 1 63 then
        (-((shl64 1 63 : Nat) : Int), some NumError.ErrRange)
      else
        (if neg then negInt64 (toInt64 (ParseUint body 10).1)
          else toInt64 (ParseUint body 10).1, none))
      = parseIntResult neg body := by
  have hcut : shl64 1 63 = 9223372036854775808 := by decide
  rw [ParseUint_ten, hcut]
  unfold parseIntResult
  by_cases hb : body = []
  · simp [hb]
  · rw [if_neg hb, if_neg hb]
    by_cases hbig : digitsValue (leadingDigits body) 0 ≥ 2 ^ 64
    · rw [if_pos hbig, if_pos hbig]
      cases neg <;> simp
    · rw [if_neg hbig, if_neg hbig]
      by_cases hall : allDigits body = false
      · rw [if_pos hall, if_pos hall]
        simp
      · rw [if_neg hall, if_neg hall]
        have hlead : leadingDigits body = body := by
          unfold leadingDigits
          rw [List.takeWhile_eq_self_iff]
          intro x hx
          have : allDigits body = true := by simpa using hall
          exact (List.all_eq_true.1 this) x hx
        rw [hlead] at hbig
        generalize digitsValue body 0 = v at hbig ⊢
        simp only [reduceCtorEq, if_false]
        cases neg
        · by_cases h1 : v ≥ 9223372036854775808
          · simp [h1]
          · have := toInt64_of_lt v (by omega)
            simp [h1, this]
        · by_cases h1 : v > 9223372036854775808
          · simp [h1]
          · have := toInt64_neg_of_le v (by omega)
            simp [h1, this]

theorem ParseInt_ten (text : List Nat) :
    ParseInt text 10 = parseIntResult (hasMinus text) (unsignedPart text) := by
  cases text with
  | nil => rfl
  | cons c rest =>
    rw [← ParseInt_afterSign]
    by_cases h43 : c = 43
    · subst h43
      simp [ParseInt, hasMinus, unsignedPart]
    · by_cases h45 : c = 45
      · subst h45
        simp [ParseInt, hasMinus, unsignedPart]
      · simp [ParseInt, hasMinus, unsignedPart, h43, h45]

/-! ## FormatInt in base 10 -/

theorem allDigits_iff (ds : List Nat) : allDigits ds = true ↔ ∀ c ∈ ds, 48 ≤ c ∧ c ≤ 57 := by
  unfold allDigits
  rw [List.all_eq_true]
  exact forall_congr' (fun c => imp_congr_right (fun _ => isDigit_iff c))

/-- The bytes `formatBits` puts in front of `acc` are decimal digits that denote
`u`, provided the round bound covers the digits of `u`. -/
theorem formatBits_ten : ∀ (fuel u : Nat) (acc : List Nat), u < 10 ^ (fuel + 1) →
    ∃ ds : List Nat, formatBits 10 (fuel + 1) u acc = ds ++ acc ∧ ds ≠ [] ∧
      allDigits ds = true ∧ ∀ n : Nat, digitsValue ds n = n * 10 ^ ds.length + u := by
  have small : ∀ (fuel u : Nat) (acc : List Nat), u < 10 →
      ∃ ds : List Nat, formatBits 10 (fuel + 1) u acc = ds ++ acc ∧ ds ≠ [] ∧
        allDigits ds = true ∧ ∀ n : Nat, digitsValue ds n = n * 10 ^ ds.length + u := by
    intro fuel u acc h10
    refine ⟨[48 + u], ?_, by simp, ?_, ?_⟩
    · simp [formatBits, h10, digitChar]
    · rw [allDigits_iff]
      intro c hc
      rw [List.mem_singleton] at hc
      omega
    · intro n
      show n * 10 + (48 + u - 48) = n * 10 ^ 1 + u
      omega
  intro fuel
  induction fuel with
  | zero => intro u acc hu; exact small 0 u acc (by omega)
  | succ fuel ih =>
    intro u acc hu
    by_cases h10 : u < 10
    · exact small (fuel + 1) u acc h10
    · have hq : u / 10 < 10 ^ (fuel + 1) := by
        rw [Nat.pow_succ] at hu
        omega
      obtain ⟨ds, hds, -, hall, hval⟩ := ih (u / 10) (digitChar (u % 10) :: acc) hq
      have hdc : digitChar (u % 10) = 48 + u % 10 := by
        unfold digitChar
        rw [if_pos (by omega)]
      rw [hdc] at hds
      refine ⟨ds ++ [48 + u % 10], ?_, by simp, ?_, ?_⟩
      · rw [formatBits, if_neg h10, hdc, hds, List.append_assoc, List.singleton_append]
      · rw [allDigits_iff] at hall ⊢
        intro c hc
        rw [List.mem_append, List.mem_singleton] at hc
        rcases hc with hc | hc
        · exact hall c hc
        · omega
      · intro n
        rw [digitsValue_append, hval n, List.length_append, List.length_singleton, Nat.pow_succ]
        show (n * 10 ^ ds.length + u / 10) * 10 + (48 + u % 10 - 48) = _
        have : n * (10 ^ ds.length * 10) = n * 10 ^ ds.length * 10 := by ring
        omega

/-- The bytes `formatBits` produces are the decimal digits of `u` in the sense of
`Nat.digits`, most significant first. -/
theorem formatBits_digits : ∀ (fuel u : Nat) (acc : List Nat), u < 10 ^ (fuel + 1) →
    formatBits 10 (fuel + 1) u acc =
      (if u = 0 then [48] else (Nat.digits 10 u).reverse.map (fun d => 48 + d)) ++ acc := by
  have small : ∀ (fuel u : Nat) (acc : List Nat), u < 10 →
      formatBits 10 (fuel + 1) u acc =
        (if u = 0 then [48] else (Nat.digits 10 u).reverse.map (fun d => 48 + d)) ++ acc := by
    intro fuel u acc h10
    by_cases h0 : u = 0
    · subst h0
      rfl
    · have hd : Nat.digits 10 u = [u] := Nat.digits_of_lt 10 u h0 h10
      simp [formatBits, h10, digitChar, h0, hd]
  intro fuel
  induction fuel with
  | zero => intro u acc hu; exact small 0 u acc (by omega)
  | succ fuel ih =>
    intro u acc hu
    by_cases h10 : u < 10
    · exact small (fuel + 1) u acc h10
    · have hq : u / 10 < 10 ^ (fuel + 1) := by
        rw [Nat.pow_succ] at hu
        omega
      have hq0 : u / 10 ≠ 0 := by omega
      have hu0 : u ≠ 0 := by omega
      have hd : Nat.digits 10 u = (u % 10) :: Nat.digits 10 (u / 10) :=
        Nat.digits_def' (by norm_num) (by omega)
      have hdc : digitChar (u % 10) = 48 + u % 10 := by
        unfold digitChar
        rw [if_pos (by omega)]
      rw [formatBits, if_neg h10, ih (u / 10) _ hq, if_neg hq0, if_neg hu0, hd, hdc]
      simp only [List.reverse_cons, List.map_append, List.map_cons, List.map_nil,
        List.append_assoc, List.singleton_append]

theorem FormatInt_nonneg (i : Int) (h0 : 0 ≤ i) (h1 : i < 2 ^ 63) :
    FormatInt i 10 = formatBits 10 64 i.toNat [] := by
  have hu : toUint64 i = i.toNat := by
    unfold toUint64
    omega
  simp only [FormatInt, hu, if_neg (by omega : ¬ i < 0)]

theorem FormatInt_neg (i : Int) (h0 : i < 0) (h1 : -(2 ^ 63) ≤ i) :
    FormatInt i 10 = 45 :: formatBits 10 64 (-i).toNat [] := by
  have hu : (2 ^ 64 - toUint64 i) % 2 ^ 64 = (-i).toNat := by
    unfold toUint64
    omega
  simp only [FormatInt, hu, if_pos h0]

theorem ToUpper_digits (ds : List Nat) (h : allDigits ds = true) : ToUpper ds = ds := by
  rw [allDigits_iff] at h
  unfold ToUpper
  conv_rhs => rw [← List.map_id ds]
  apply List.map_congr_left
  intro c hc
  have := h c hc
  rw [if_neg (by omega)]
  rfl

theorem unsigned_of_digits (ds : List Nat) (hne : ds ≠ []) (h : allDigits ds = true) :
    hasMinus ds = false ∧ unsignedPart ds = ds := by
  cases ds with
  | nil => exact absurd rfl hne
  | cons c cs =>
    have hc := (allDigits_iff _).1 h c (List.mem_cons_self c cs)
    have h43 : c ≠ 43 := by omega
    have h45 : c ≠ 45 := by omega
    simp [hasMinus, unsignedPart, h43, h45]

theorem leadingDigits_of_all (ds : List Nat) (h : allDigits ds = true) :
    leadingDigits ds = ds := by
  unfold leadingDigits
  rw [List.takeWhile_eq_self_iff]
  intro x hx
  exact (List.all_eq_true.1 h) x hx

/-- `ParseInt` on a run of digits whose value fits. -/
theorem parseIntResult_digits (neg : Bool) (ds : List Nat) (hne : ds ≠ [])
    (hall : allDigits ds = true)
    (hfit : if neg then digitsValue ds 0 ≤ 2 ^ 63 else digitsValue ds 0 < 2 ^ 63) :
    parseIntResult neg ds =
      (if neg then -((digitsValue ds 0 : Nat) : Int) else ((digitsValue ds 0 : Nat) : Int),
        none) := by
  unfold parseIntResult
  rw [leadingDigits_of_all ds hall, if_neg hne]
  cases neg
  · simp only [Bool.false_eq_true, if_false] at hfit
    rw [if_neg (by omega), if_neg (by simp [hall]), if_neg (by simp; omega), if_neg (by simp)]
  · simp only [if_true] at hfit
    rw [if_neg (by omega), if_neg (by simp [hall]), if_neg (by simp), if_neg (by simp; omega)]

/-- Parsing the decimal rendering of an `int64` gives the value back. -/
theorem ParseInt_FormatInt (i : Int) (hlo : -(2 ^ 63) ≤ i) (hhi : i < 2 ^ 63) :
    ParseInt (FormatInt i 10) 10 = (i, none) := by
  rw [ParseInt_ten]
  by_cases hneg : i < 0
  · rw [FormatInt_neg i hneg hlo]
    obtain ⟨ds, hds, hne, hall, hval⟩ := formatBits_ten 63 (-i).toNat [] (by omega)
    rw [List.append_nil] at hds
    rw [hds]
    have hv : digitsValue ds 0 = (-i).toNat := by rw [hval 0]; omega
    show parseIntResult true ds = _
    rw [parseIntResult_digits true ds hne hall (by simp only [if_true]; omega), hv]
    simp only [if_true]
    congr 1
    omega
  · rw [FormatInt_nonneg i (by omega) hhi]
    obtain ⟨ds, hds, hne, hall, hval⟩ := formatBits_ten 63 i.toNat [] (by omega)
    rw [List.append_nil] at hds
    rw [hds]
    have hv : digitsValue ds 0 = i.toNat := by rw [hval 0]; omega
    obtain ⟨hm, hu⟩ := unsigned_of_digits ds hne hall
    rw [hm, hu, parseIntResult_digits false ds hne hall (by simp; omega), hv]
    simp only [Bool.false_eq_true, if_false]
    congr 1
    omega

/-- The shape of the decimal rendering of an `int64`: an optional `-`, then a
non-empty run of digits that denotes the absolute value. -/
theorem FormatInt_shape (i : Int) (hlo : -(2 ^ 63) ≤ i) (hhi : i < 2 ^ 63) :
    ∃ ds : List Nat, ds ≠ [] ∧ allDigits ds = true ∧ digitsValue ds 0 = i.natAbs ∧
      FormatInt i 10 = if i < 0 then 45 :: ds else ds := by
  by_cases hneg : i < 0
  · obtain ⟨ds, hds, hne, hall, hval⟩ := formatBits_ten 63 (-i).toNat [] (by omega)
    rw [List.append_nil] at hds
    refine ⟨ds, hne, hall, ?_, ?_⟩
    · rw [hval 0]; omega
    · rw [if_pos hneg, FormatInt_neg i hneg hlo, hds]
  · obtain ⟨ds, hds, hne, hall, hval⟩ := formatBits_ten 63 i.toNat [] (by omega)
    rw [List.append_nil] at hds
    refine ⟨ds, hne, hall, ?_, ?_⟩
    · rw [hval 0]; omega
    · rw [if_neg hneg, FormatInt_nonneg i (by omega) hhi, hds]

/-- Every byte of the decimal rendering is `-` or a digit, and there is one. -/
theorem FormatInt_bytes (i : Int) (hlo : -(2 ^ 63) ≤ i) (hhi : i < 2 ^ 63) :
    FormatInt i 10 ≠ [] ∧ ∀ c ∈ FormatInt i 10, c = 45 ∨ (48 ≤ c ∧ c ≤ 57) := by
  obtain ⟨ds, hne, hall, -, hf⟩ := FormatInt_shape i hlo hhi
  rw [allDigits_iff] at hall
  rw [hf]
  by_cases hneg : i < 0
  · rw [if_pos hneg]
    refine ⟨List.cons_ne_nil _ _, ?_⟩
    intro c hc
    rcases List.mem_cons.1 hc with h | h
    · exact Or.inl h
    · exact Or.inr (hall c h)
  · rw [if_neg hneg]
    exact ⟨hne, fun c hc => Or.inr (hall c hc)⟩

theorem ToUpper_FormatInt (i : Int) (hlo : -(2 ^ 63) ≤ i) (hhi : i < 2 ^ 63) :
    ToUpper (FormatInt i 10) = FormatInt i 10 := by
  have hb := (FormatInt_bytes i hlo hhi).2
  unfold ToUpper
  conv_rhs => rw [← List.map_id (FormatInt i 10)]
  apply List.map_congr_left
  intro c hc
  have := hb c hc
  rw [if_neg (by omega)]
  rfl

/-! ## Trim -/

theorem trimLeftByte_of_head (l : List Nat) (c : Nat) (h : l.head? ≠ some c) :
    trimLeftByte l c = l := by
  cases l with
  | nil => rfl
  | cons x xs =>
    have hx : x ≠ c := fun e => h (by rw [e]; rfl)
    simp [trimLeftByte, hx]

theorem trimLeftByte_replicate (a c : Nat) (l : List Nat) :
    trimLeftByte (List.replicate a c ++ l) c = trimLeftByte l c := by
  induction a with
  | zero => rfl
  | succ a ih =>
    rw [List.replicate_succ, List.cons_append]
    simp only [trimLeftByte, if_true]
    exact ih

/-- `Trim` removes every leading and trailing occurrence of the byte and nothing
else. -/
theorem Trim_replicate (a b c : Nat) (core : List Nat) (hh : core.head? ≠ some c)
    (hl : core.getLast? ≠ some c) :
    Trim (List.replicate a c ++ core ++ List.replicate b c) c = core := by
  unfold Trim trimRightByte
  rw [List.reverse_append, List.reverse_append, List.reverse_replicate, List.reverse_replicate,
    trimLeftByte_replicate]
  cases core with
  | nil =>
    have h0 := trimLeftByte_replicate a c []
    rw [List.append_nil] at h0
    rw [List.reverse_nil, List.nil_append, h0]
    rfl
  | cons x xs =>
    have hrev : ((x :: xs).reverse ++ List.replicate a c).head? ≠ some c := by
      have hne : (x :: xs).reverse ≠ [] := by simp
      rw [List.head?_append_of_ne_nil _ hne, List.head?_reverse]
      exact hl
    rw [trimLeftByte_of_head _ c hrev, List.reverse_append, List.reverse_reverse,
      List.reverse_replicate, trimLeftByte_replicate]
    exact trimLeftByte_of_head _ c hh

/-- The quotes `MarshalJSON` adds are exactly what `Trim` removes. -/
theorem Trim_quoted (s : List Nat) (h : ∀ c ∈ s, c ≠ 34) : Trim (34 :: s ++ [34]) 34 = s := by
  have hh : s.head? ≠ some 34 := by
    intro e
    exact h 34 (List.mem_of_mem_head? e) rfl
  have hl : s.getLast? ≠ some 34 := by
    intro e
    exact h 34 (List.mem_of_getLast?_eq_some e) rfl
  exact Trim_replicate 1 1 34 s hh hl

/-! ## ParseInt and decimal literals -/

/-- `ParseInt` on a signed decimal literal: its value when it is in the `int64`
range, else the nearest bound with a range error. -/
theorem ParseInt_of_literal (text : List Nat) (v : Int) (h : literalValue text = some v) :
    ParseInt text 10 =
      if v > 2 ^ 63 - 1 then (2 ^ 63 - 1, some NumError.ErrRange)
      else if v < -(2 ^ 63) then (-(2 ^ 63), some NumError.ErrRange)
      else (v, none) := by
  unfold literalValue at h
  by_cases hc : unsignedPart text ≠ [] ∧ allDigits (unsignedPart text) = true
  · rw [if_pos hc] at h
    have hv := Option.some.inj h
    rw [ParseInt_ten]
    unfold parseIntResult
    rw [leadingDigits_of_all _ hc.2, if_neg hc.1]
    have hall : ¬ allDigits (unsignedPart text) = false := by simp [hc.2]
    generalize digitsValue (unsignedPart text) 0 = dv at hv ⊢
    rw [if_neg hall]
    cases hm : hasMinus text
    · rw [hm] at hv
      simp only [Bool.false_eq_true, if_false] at hv
      subst hv
      simp only [Bool.false_eq_true, if_false, true_and, false_and]
      split_ifs <;> first | rfl | (exfalso; omega)
    · rw [hm] at hv
      simp only [if_true] at hv
      subst hv
      simp only [Bool.true_eq_false, if_true, if_false, true_and, false_and]
      split_ifs <;> first | rfl | (exfalso; omega)
  · rw [if_neg hc] at h
    exact absurd h (by simp)

/-- `ParseInt` on a text that is not a signed decimal literal: a syntax error
with value 0, unless the leading digits already leave the `uint64` range, which
gives a range error with the bound of the sign. -/
theorem ParseInt_of_not_literal (text : List Nat) (h : literalValue text = none) :
    ParseInt text 10 =
      if digitsValue (leadingDigits (unsignedPart text)) 0 ≥ 2 ^ 64 then
        (if hasMinus text then -(2 ^ 63) else 2 ^ 63 - 1, some NumError.ErrRange)
      else (0, some NumError.ErrSyntax) := by
  unfold literalValue at h
  by_cases hc : unsignedPart text ≠ [] ∧ allDigits (unsignedPart text) = true
  · rw [if_pos hc] at h
    exact absurd h (by simp)
  · rw [ParseInt_ten]
    unfold parseIntResult
    by_cases hb : unsignedPart text = []
    · rw [if_pos hb, hb]
      have : ¬ digitsValue (leadingDigits []) 0 ≥ 2 ^ 64 := by
        show ¬ (0 : Nat) ≥ 2 ^ 64
        omega
      rw [if_neg this]
    · rw [if_neg hb]
      by_cases h64 : digitsValue (leadingDigits (unsignedPart text)) 0 ≥ 2 ^ 64
      · rw [if_pos h64, if_pos h64]
      · have hall : allDigits (unsignedPart text) = false := by
          cases ha : allDigits (unsignedPart text)
          · rfl
          · exact absurd ⟨hb, ha⟩ hc
        rw [if_neg h64, if_neg h64, if_pos hall]

theorem NewFromString_eq (str : List Nat) :
    NewFromString str =
      if (ParseInt str 10).2 ≠ none then (0, (ParseInt str 10).2)
      else ((ParseInt str 10).1, none) := rfl

theorem UnmarshalBind_eq (r : Int) (value : List Nat) :
    BigID.UnmarshalBind r value = ParseInt value 10 := rfl

theorem UnmarshalJSON_eq (r : Int) (data : List Nat) :
    BigID.UnmarshalJSON r data = ParseInt (Trim data 34) 10 := rfl

theorem Parse_newBigId_ts (c t s : Nat) : (Parse (newBigId c t s)).Timestamp = t % 2 ^ 40 := by
  rw [Parse_fields, newBigId_eq]
  norm_num
  omega

theorem Parse_CreateTime (x : Nat) :
    (Parse x).CreateTime = (((Parse x).Timestamp * 1000000 : Nat) : Int) := by
  rw [Parse_fields]
  apply toInt64_of_lt
  norm_num
  omega

theorem NewFromString_of_literal (text : List Nat) (v : Int) (h : literalValue text = some v) :
    NewFromString text =
      if -(2 ^ 63) ≤ v ∧ v ≤ 2 ^ 63 - 1 then (v, none) else (0, some NumError.ErrRange) := by
  rw [NewFromString_eq, ParseInt_of_literal text v h]
  by_cases h1 : v > 2 ^ 63 - 1
  · rw [if_pos h1, if_neg (by omega : ¬ (-(2 ^ 63) ≤ v ∧ v ≤ 2 ^ 63 - 1))]
    rfl
  · rw [if_neg h1]
    by_cases h2 : v < -(2 ^ 63)
    · rw [if_pos h2, if_neg (by omega : ¬ (-(2 ^ 63) ≤ v ∧ v ≤ 2 ^ 63 - 1))]
      rfl
    · rw [if_neg h2, if_pos (by omega : -(2 ^ 63) ≤ v ∧ v ≤ 2 ^ 63 - 1)]
      rfl

theorem NewFromString_of_not_literal (text : List Nat) (h : literalValue text = none) :
    ∃ e : NumError, NewFromString text = (0, some e) := by
  rw [NewFromString_eq, ParseInt_of_not_literal text h]
  by_cases h64 : digitsValue (leadingDigits (unsignedPart text)) 0 ≥ 2 ^ 64
  · rw [if_pos h64]
    exact ⟨NumError.ErrRange, rfl⟩
  · rw [if_neg h64]
    exact ⟨NumError.ErrSyntax, rfl⟩

/-! ## Time -/

/-- C11: when the elapsed time `d` at generation is non-negative and its whole
milliseconds fit in 40 bits, the `Timestamp` field `T` decoded from the
identifier satisfies `T * 10^6 ≤ d < (T + 1) * 10^6`: the clock base plus `T`
milliseconds, which is the offset `Parse` uses for `CreateTime`, is at most the
generation instant and less than one millisecond before it. -/
theorem New_timestamp_within_ms (c0 s : Nat) (d : Int) (h0 : 0 ≤ d)
    (h1 : d / 1000000 < 2 ^ 40) :
    ((Parse (New c0 d s).2).Timestamp : Int) * 1000000 ≤ d ∧
    d < (((Parse (New c0 d s).2).Timestamp : Int) + 1) * 1000000 ∧
    (Parse (New c0 d s).2).CreateTime = ((Parse (New c0 d s).2).Timestamp : Int) * 1000000 ∧
    (Parse (New c0 d s).2).CreateTime ≤ d ∧
    d - (Parse (New c0 d s).2).CreateTime < 1000000 := by
  have hct := Parse_CreateTime (New c0 d s).2
  have hts : (Parse (New c0 d s).2).Timestamp = (d / 1000000).toNat := by
    rw [New_snd, Parse_newBigId_ts, Int.tdiv_eq_ediv h0 (by norm_num)]
    unfold toUint64
    omega
  rw [hct, hts]
  push_cast
  omega

/-- Instance of `New_timestamp_within_ms` one nanosecond before millisecond 1001. -/
theorem New_timestamp_within_ms_witness :
    (0 : Int) ≤ 1000999999 ∧ (1000999999 : Int) / 1000000 < 2 ^ 40 ∧
    ((Parse (New 0 1000999999 7).2).Timestamp : Int) * 1000000 ≤ 1000999999 ∧
    (1000999999 : Int) < (((Parse (New 0 1000999999 7).2).Timestamp : Int) + 1) * 1000000 :=
  ⟨by decide, by decide,
    (New_timestamp_within_ms 0 7 1000999999 (by decide) (by decide)).1,
    (New_timestamp_within_ms 0 7 1000999999 (by decide) (by decide)).2.1⟩

/-! ## Textual forms -/

/-- C12: for every `BigID` value `id` (every signed 64-bit value, negative ones
and `-2^63` included) `NewFromString (id.String())` succeeds and returns `id`;
`String()` is the base-10 rendering of the value (an optional `-`, then the
decimal digits of the absolute value) and the upper-casing leaves it
unchanged. -/
theorem String_roundtrip (id : Int) (hlo : -(2 ^ 63) ≤ id) (hhi : id < 2 ^ 63) :
    NewFromString (BigID.String id) = (id, none) ∧
    ToUpper (FormatInt id 10) = FormatInt id 10 ∧
    BigID.String id =
      (if id < 0 then [45] else []) ++
        (if id = 0 then [48] else (Nat.digits 10 id.natAbs).reverse.map (fun d => 48 + d)) ∧
    BigID.String (-(2 ^ 63)) = ascii "-9223372036854775808" ∧
    NewFromString (ascii "-9223372036854775808") = (-(2 ^ 63), none) := by
  have hup := ToUpper_FormatInt id hlo hhi
  have hs : BigID.String id = FormatInt id 10 := hup
  refine ⟨?_, hup, ?_, by decide, by decide⟩
  · rw [hs, NewFromString_eq, ParseInt_FormatInt id hlo hhi]
    rfl
  · rw [hs]
    by_cases hneg : id < 0
    · have e : (-id).toNat = id.natAbs := by omega
      have hne : id.natAbs ≠ 0 := by omega
      rw [FormatInt_neg id hneg hlo, formatBits_digits 63 _ [] (by omega), e, if_pos hneg,
        if_neg hne, if_neg (by omega : ¬ id = 0), List.append_nil]
      rfl
    · have e : id.toNat = id.natAbs := by omega
      rw [FormatInt_nonneg id (by omega) hhi, formatBits_digits 63 _ [] (by omega), e,
        if_neg hneg, List.append_nil, List.nil_append]
      by_cases h0 : id = 0
      · rw [if_pos h0, if_pos (by omega : id.natAbs = 0)]
      · rw [if_neg h0, if_neg (by omega : ¬ id.natAbs = 0)]

/-- Instance of `String_roundtrip` at the negative value `-120`. -/
theorem String_roundtrip_witness :
    -(2 ^ 63) ≤ (-120 : Int) ∧ (-120 : Int) < 2 ^ 63 ∧
    NewFromString (BigID.String (-120)) = (-120, none) :=
  ⟨by decide, by decide, (String_roundtrip (-120) (by decide) (by decide)).1⟩

/-- C13: for every `BigID` value `id`, `MarshalJSON` returns no error and the
decimal rendering of `id` between one pair of double quotes (the rendering
itself holds no quote), and `UnmarshalJSON` on those bytes returns no error and
leaves `id` in the receiver, whatever the receiver held before. -/
theorem MarshalJSON_roundtrip (id r : Int) (hlo : -(2 ^ 63) ≤ id) (hhi : id < 2 ^ 63) :
    BigID.MarshalJSON id = (34 :: FormatInt id 10 ++ [34], none) ∧
    (∀ c ∈ FormatInt id 10, c ≠ 34) ∧
    BigID.UnmarshalJSON r (BigID.MarshalJSON id).1 = (id, none) := by
  have hup : BigID.String id = FormatInt id 10 := ToUpper_FormatInt id hlo hhi
  have hq : ∀ c ∈ FormatInt id 10, c ≠ 34 := by
    intro c hc
    have := (FormatInt_bytes id hlo hhi).2 c hc
    omega
  have hm : BigID.MarshalJSON id = (34 :: FormatInt id 10 ++ [34], none) := by
    unfold BigID.MarshalJSON
    rw [hup]
  refine ⟨hm, hq, ?_⟩
  rw [hm, UnmarshalJSON_eq, Trim_quoted _ hq]
  exact ParseInt_FormatInt id hlo hhi

/-- Instance of `MarshalJSON_roundtrip` at `-2^63` with a receiver that held 7. -/
theorem MarshalJSON_roundtrip_witness :
    -(2 ^ 63) ≤ (-9223372036854775808 : Int) ∧ (-9223372036854775808 : Int) < 2 ^ 63 ∧
    BigID.UnmarshalJSON 7 (BigID.MarshalJSON (-9223372036854775808)).1
      = (-9223372036854775808, none) :=
  ⟨by decide, by decide,
    (MarshalJSON_roundtrip (-9223372036854775808) 7 (by decide) (by decide)).2.2⟩

/-- C14: `NewFromString text` returns an error exactly when `text` is not an
optional sign followed by one or more decimal digits that denote an integer in
`[-2^63, 2^63 - 1]`; on success it returns that integer and on failure it
returns 0.  It fails on `not-a-number`, on the empty text and on
`9223372036854775808`. -/
theorem NewFromString_spec (text : List Nat) :
    ((NewFromString text).2 ≠ none ↔
      ¬ ∃ v : Int, literalValue text = some v ∧ -(2 ^ 63) ≤ v ∧ v ≤ 2 ^ 63 - 1) ∧
    (∀ v : Int, literalValue text = some v → -(2 ^ 63) ≤ v → v ≤ 2 ^ 63 - 1 →
      NewFromString text = (v, none)) ∧
    ((NewFromString text).2 ≠ none → (NewFromString text).1 = 0) ∧
    NewFromString (ascii "not-a-number") = (0, some NumError.ErrSyntax) ∧
    NewFromString (ascii "") = (0, some NumError.ErrSyntax) ∧
    NewFromString (ascii "9223372036854775808") = (0, some NumError.ErrRange) := by
  refine ⟨?_, ?_, ?_, by decide, by decide, by decide⟩
  · cases hl : literalValue text with
    | none =>
      obtain ⟨e, he⟩ := NewFromString_of_not_literal text hl
      rw [he]
      simp
    | some v =>
      rw [NewFromString_of_literal text v hl]
      by_cases hr : -(2 ^ 63) ≤ v ∧ v ≤ 2 ^ 63 - 1
      · rw [if_pos hr]
        have hex : ∃ w : Int, some v = some w ∧ -(2 ^ 63) ≤ w ∧ w ≤ 2 ^ 63 - 1 := ⟨v, rfl, hr⟩
        exact ⟨fun h => absurd rfl h, fun h => absurd hex h⟩
      · rw [if_neg hr]
        simp only [ne_eq, reduceCtorEq, not_false_eq_true, Option.some.injEq, true_iff]
        rintro ⟨w, hw, hw2⟩
        rw [← hw] at hw2
        exact hr hw2
  · intro v hl h1 h2
    rw [NewFromString_of_literal text v hl, if_pos ⟨h1, h2⟩]
  · intro herr
    rw [NewFromString_eq] at herr ⊢
    by_cases hp : (ParseInt text 10).2 ≠ none
    · rw [if_pos hp]
    · rw [if_neg hp] at herr
      exact absurd rfl herr

/-- Instance of `NewFromString_spec` at the literal `+12`. -/
theorem NewFromString_spec_witness :
    literalValue (ascii "+12") = some 12 ∧ NewFromString (ascii "+12") = (12, none) :=
  ⟨by decide, (NewFromString_spec (ascii "+12")).2.1 12 (by decide) (by decide) (by decide)⟩

/-- C15, as the code has it: `UnmarshalBind v` returns the error `NewFromString v`
returns, hence an error exactly when `NewFromString v` does, and when there is
no error the identifier it leaves in the receiver is the one `NewFromString v`
returns.  When there is an error `NewFromString` returns 0, while the receiver
holds what `ParseInt` returned: 0 on a syntax error, `2^63 - 1` or `-2^63` on a
range error. -/
theorem UnmarshalBind_vs_NewFromString (r : Int) (v : List Nat) :
    (BigID.UnmarshalBind r v).2 = (NewFromString v).2 ∧
    ((BigID.UnmarshalBind r v).2 ≠ none ↔ (NewFromString v).2 ≠ none) ∧
    ((NewFromString v).2 = none → (BigID.UnmarshalBind r v).1 = (NewFromString v).1) ∧
    ((NewFromString v).2 ≠ none → (NewFromString v).1 = 0) ∧
    ((BigID.UnmarshalBind r v).2 = some NumError.ErrSyntax → (BigID.UnmarshalBind r v).1 = 0) ∧
    ((BigID.UnmarshalBind r v).2 = some NumError.ErrRange →
      (BigID.UnmarshalBind r v).1 = 2 ^ 63 - 1 ∨ (BigID.UnmarshalBind r v).1 = -(2 ^ 63)) := by
  have herr : (BigID.UnmarshalBind r v).2 = (NewFromString v).2 := by
    rw [UnmarshalBind_eq, NewFromString_eq]
    by_cases hp : (ParseInt v 10).2 ≠ none
    · rw [if_pos hp]
    · rw [if_neg hp]
      exact not_not.1 hp
  refine ⟨herr, by rw [herr], ?_, ?_, ?_, ?_⟩
  · intro hn
    rw [UnmarshalBind_eq]
    rw [NewFromString_eq] at hn ⊢
    by_cases hp : (ParseInt v 10).2 ≠ none
    · rw [if_pos hp] at hn
      exact absurd hn hp
    · rw [if_neg hp]
  · intro hn
    rw [NewFromString_eq] at hn ⊢
    by_cases hp : (ParseInt v 10).2 ≠ none
    · rw [if_pos hp]
    · rw [if_neg hp] at hn
      exact absurd rfl hn
  · rw [UnmarshalBind_eq]
    cases hl : literalValue v with
    | none =>
      rw [ParseInt_of_not_literal v hl]
      split_ifs <;> simp
    | some w =>
      rw [ParseInt_of_literal v w hl]
      split_ifs <;> simp
  · rw [UnmarshalBind_eq]
    cases hl : literalValue v with
    | none =>
      rw [ParseInt_of_not_literal v hl]
      split_ifs <;> simp
    | some w =>
      rw [ParseInt_of_literal v w hl]
      split_ifs <;> simp

/-- Instance of `UnmarshalBind_vs_NewFromString` at the text `-42` with a
receiver that held 5. -/
theorem UnmarshalBind_vs_NewFromString_witness :
    (NewFromString (ascii "-42")).2 = none ∧
    (BigID.UnmarshalBind 5 (ascii "-42")).1 = (NewFromString (ascii "-42")).1 :=
  ⟨by decide, (UnmarshalBind_vs_NewFromString 5 (ascii "-42")).2.2.1 (by decide)⟩

/-- C15 as stated fails: on `9223372036854775808` both calls return an error,
`NewFromString` returns 0 and `UnmarshalBind` leaves `2^63 - 1` in the
receiver. -/
theorem UnmarshalBind_differs_on_error :
    (NewFromString (ascii "9223372036854775808")).2 ≠ none ∧
    (BigID.UnmarshalBind 0 (ascii "9223372036854775808")).2 ≠ none ∧
    (NewFromString (ascii "9223372036854775808")).1 = 0 ∧
    (BigID.UnmarshalBind 0 (ascii "9223372036854775808")).1 = 9223372036854775807 ∧
    (BigID.UnmarshalBind 0 (ascii "9223372036854775808")).1
      ≠ (NewFromString (ascii "9223372036854775808")).1 := by
  decide

/-- C16: `NewFromString` reads its text in base 10, not in base 36: `Z` is a
syntax error and `10` gives 10, where the base-36 reading `ParseInt(s, 36, 64)`
gives 35 and 36. -/
theorem NewFromString_not_base36 :
    NewFromString (ascii "Z") = (0, some NumError.ErrSyntax) ∧
    NewFromString (ascii "10") = (10, none) ∧
    ParseInt (ascii "Z") 36 = (35, none) ∧
    ParseInt (ascii "10") 36 = (36, none) := by
  decide

/-- C17: for every byte string `data`, `UnmarshalJSON data` returns the error
`NewFromString` returns on `data` without its leading and trailing double
quotes, hence an error exactly when that call fails, and on success it leaves
in the receiver the value that call returns.  `Trim` removes all the quotes at
both ends, so the bare text `123`, the one-sided `"123` and the doubly quoted
`""123""` all decode to 123. -/
theorem UnmarshalJSON_spec (r : Int) (data : List Nat) :
    (BigID.UnmarshalJSON r data).2 = (NewFromString (Trim data 34)).2 ∧
    ((BigID.UnmarshalJSON r data).2 ≠ none ↔ (NewFromString (Trim data 34)).2 ≠ none) ∧
    ((NewFromString (Trim data 34)).2 = none →
      (BigID.UnmarshalJSON r data).1 = (NewFromString (Trim data 34)).1) ∧
    (∀ (a b : Nat) (core : List Nat), core.head? ≠ some 34 → core.getLast? ≠ some 34 →
      Trim (List.replicate a 34 ++ core ++ List.replicate b 34) 34 = core) ∧
    BigID.UnmarshalJSON r [49, 50, 51] = (123, none) ∧
    BigID.UnmarshalJSON r [34, 49, 50, 51] = (123, none) ∧
    BigID.UnmarshalJSON r [34, 34, 49, 50, 51, 34, 34] = (123, none) := by
  have herr : (BigID.UnmarshalJSON r data).2 = (NewFromString (Trim data 34)).2 := by
    rw [UnmarshalJSON_eq, NewFromString_eq]
    by_cases hp : (ParseInt (Trim data 34) 10).2 ≠ none
    · rw [if_pos hp]
    · rw [if_neg hp]
      exact not_not.1 hp
  have e1 : ParseInt (Trim [49, 50, 51] 34) 10 = (123, none) := by decide
  have e2 : ParseInt (Trim [34, 49, 50, 51] 34) 10 = (123, none) := by decide
  have e3 : ParseInt (Trim [34, 34, 49, 50, 51, 34, 34] 34) 10 = (123, none) := by decide
  refine ⟨herr, by rw [herr], ?_, ?_, e1, e2, e3⟩
  · intro hn
    rw [UnmarshalJSON_eq]
    rw [NewFromString_eq] at hn ⊢
    by_cases hp : (ParseInt (Trim data 34) 10).2 ≠ none
    · rw [if_pos hp] at hn
      exact absurd hn hp
    · rw [if_neg hp]
  · intro a b core hh hl
    exact Trim_replicate a b 34 core hh hl

/-- Instance of `UnmarshalJSON_spec` at the quoted text `"-7"` with a receiver
that held 9. -/
theorem UnmarshalJSON_spec_witness :
    (NewFromString (Trim [34, 45, 55, 34] 34)).2 = none ∧
    (BigID.UnmarshalJSON 9 [34, 45, 55, 34]).1 = -7 :=
  ⟨by decide, ((UnmarshalJSON_spec 9 [34, 45, 55, 34]).2.2.1 (by decide)).trans (by decide)⟩

/-! ## Range of the identifiers and of the decoded duration -/

/-- C18: every identifier `New` produces lies in `[2^62, 2^63)`: bit 63 is clear
and bit 62 is set, for every shard, elapsed-millisecond value and counter
value.  So its conversion to the signed `BigID` keeps the value, gives a
strictly positive number and converts back to the same `uint64`, and its
decimal rendering has no minus sign. -/
theorem New_positive (c t s : Nat) :
    2 ^ 62 ≤ newBigId c t s ∧ newBigId c t s < 2 ^ 63 ∧
    (newBigId c t s).testBit 63 = false ∧ (newBigId c t s).testBit 62 = true ∧
    BigID (newBigId c t s) = ((newBigId c t s : Nat) : Int) ∧
    toUint64 (BigID (newBigId c t s)) = newBigId c t s ∧
    0 < BigID (newBigId c t s) ∧
    45 ∉ BigID.String (BigID (newBigId c t s)) ∧
    (∀ (c0 : Nat) (d : Int), 2 ^ 62 ≤ (New c0 d s).2 ∧ (New c0 d s).2 < 2 ^ 63) := by
  have hb : ∀ c t : Nat, 2 ^ 62 ≤ newBigId c t s ∧ newBigId c t s < 2 ^ 63 := by
    intro c t
    rw [newBigId_eq]
    norm_num
    omega
  obtain ⟨hlo, hhi⟩ := hb c t
  have hconv : BigID (newBigId c t s) = ((newBigId c t s : Nat) : Int) :=
    toInt64_of_lt _ hhi
  refine ⟨hlo, hhi, ?_, ?_, hconv, ?_, ?_, ?_, ?_⟩
  · rw [Nat.testBit_to_div_mod]
    have : newBigId c t s / 2 ^ 63 % 2 = 0 := by omega
    rw [this]
    rfl
  · rw [Nat.testBit_to_div_mod]
    have : newBigId c t s / 2 ^ 62 % 2 = 1 := by omega
    rw [this]
    rfl
  · rw [hconv]
    unfold toUint64
    omega
  · rw [hconv]
    omega
  · rw [hconv]
    generalize newBigId c t s = x at hlo hhi
    have h1 : -(2 ^ 63) ≤ (x : Int) := by omega
    have h2 : (x : Int) < 2 ^ 63 := by omega
    obtain ⟨ds, hne, hall, -, hf⟩ := FormatInt_shape (x : Int) h1 h2
    have hs : BigID.String (x : Int) = FormatInt (x : Int) 10 := ToUpper_FormatInt _ h1 h2
    rw [hs, hf, if_neg (by omega : ¬ (x : Int) < 0)]
    intro hmem
    have := (allDigits_iff ds).1 hall 45 hmem
    omega
  · intro c0 d
    rw [New_snd]
    exact hb _ _

/-- C19: for every value `x` the duration `Parse` computes for `CreateTime` does
not overflow: `Timestamp` is below `2^40`, so `Timestamp * 1,000,000` is at
most `2^63 - 1`, and the offset added to the clock base is exactly that
product, never a wrapped or negative number. -/
theorem Parse_duration (x : Nat) :
    (Parse x).Timestamp < 2 ^ 40 ∧
    (Parse x).Timestamp * 1000000 ≤ 2 ^ 63 - 1 ∧
    (Parse x).CreateTime = ((Parse x).Timestamp : Int) * 1000000 ∧
    0 ≤ (Parse x).CreateTime := by
  have hct := Parse_CreateTime x
  have hts : (Parse x).Timestamp < 2 ^ 40 := by
    rw [Parse_fields]
    exact Nat.mod_lt _ (by norm_num)
  refine ⟨hts, by omega, ?_, ?_⟩
  · rw [hct]
    push_cast
    rfl
  · rw [hct]
    omega

/-! ## The receiver after a failed call -/

/-- C20, as the code has it: `UnmarshalBind` and `UnmarshalJSON` overwrite the
receiver with what `ParseInt` returns, whatever it held, also when they return
an error.  A text that is not a signed decimal literal gives a syntax error and
leaves 0, unless its leading digits already exceed the `uint64` range, which
gives a range error and leaves `2^63 - 1`, or `-2^63` after a `-`; a literal
above the `int64` range leaves `2^63 - 1` and one below it leaves `-2^63`.
`UnmarshalJSON` does the same on the text without its quotes.  On the empty
text and on `abc` a receiver that held 5 becomes 0. -/
theorem Unmarshal_overwrites (r : Int) (text : List Nat) :
    (∀ r2 : Int, BigID.UnmarshalBind r2 text = BigID.UnmarshalBind r text) ∧
    (literalValue text = none → digitsValue (leadingDigits (unsignedPart text)) 0 < 2 ^ 64 →
      BigID.UnmarshalBind r text = (0, some NumError.ErrSyntax)) ∧
    (literalValue text = none → digitsValue (leadingDigits (unsignedPart text)) 0 ≥ 2 ^ 64 →
      BigID.UnmarshalBind r text
        = (if hasMinus text then -(2 ^ 63) else 2 ^ 63 - 1, some NumError.ErrRange)) ∧
    (∀ v : Int, literalValue text = some v → v > 2 ^ 63 - 1 →
      BigID.UnmarshalBind r text = (2 ^ 63 - 1, some NumError.ErrRange)) ∧
    (∀ v : Int, literalValue text = some v → v < -(2 ^ 63) →
      BigID.UnmarshalBind r text = (-(2 ^ 63), some NumError.ErrRange)) ∧
    (∀ data : List Nat, BigID.UnmarshalJSON r data = BigID.UnmarshalBind r (Trim data 34)) ∧
    (BigID.UnmarshalBind 5 (ascii "") = (0, some NumError.ErrSyntax) ∧
      BigID.UnmarshalBind 5 (ascii "abc") = (0, some NumError.ErrSyntax) ∧
      BigID.UnmarshalJSON 5 (ascii "abc") = (0, some NumError.ErrSyntax) ∧
      BigID.UnmarshalBind 5 (ascii "9223372036854775808")
        = (9223372036854775807, some NumError.ErrRange) ∧
      BigID.UnmarshalBind 5 (ascii "-9223372036854775809")
        = (-9223372036854775808, some NumError.ErrRange)) := by
  refine ⟨fun _ => rfl, ?_, ?_, ?_, ?_, fun _ => rfl, by decide⟩
  · intro hl hlt
    rw [UnmarshalBind_eq, ParseInt_of_not_literal text hl, if_neg (by omega)]
  · intro hl hge
    rw [UnmarshalBind_eq, ParseInt_of_not_literal text hl, if_pos hge]
  · intro v hl hv
    rw [UnmarshalBind_eq, ParseInt_of_literal text v hl, if_pos hv]
  · intro v hl hv
    rw [UnmarshalBind_eq, ParseInt_of_literal text v hl, if_neg (by omega), if_pos hv]

/-- Instance of `Unmarshal_overwrites` at the text `12a` with a receiver that
held 5. -/
theorem Unmarshal_overwrites_witness :
    literalValue (ascii "12a") = none ∧
    digitsValue (leadingDigits (unsignedPart (ascii "12a"))) 0 < 2 ^ 64 ∧
    BigID.UnmarshalBind 5 (ascii "12a") = (0, some NumError.ErrSyntax) :=
  ⟨by decide, by decide, (Unmarshal_overwrites 5 (ascii "12a")).2.1 (by decide) (by decide)⟩

/-- C20 as stated fails: the text of twenty nines followed by `x` is not an
integer literal, yet `UnmarshalBind` and `UnmarshalJSON` return a range error
and leave `2^63 - 1` in the receiver, not 0. -/
theorem Unmarshal_not_zero_on_overflowing_prefix :
    literalValue (ascii "99999999999999999999x") = none ∧
    BigID.UnmarshalBind 5 (ascii "99999999999999999999x")
      = (9223372036854775807, some NumError.ErrRange) ∧
    BigID.UnmarshalJSON 5 (ascii "99999999999999999999x")
      = (9223372036854775807, some NumError.ErrRange) ∧
    (BigID.UnmarshalBind 5 (ascii "99999999999999999999x")).1 ≠ 0 := by
  decide

end Bigid
